import Mathlib

/-!
Verification of the substitution cipher in `Q1.py` of the HIT137 repository.

The cipher operates character by character.  Characters are Lean `Char`s;
Python's `ord` and `chr` are modelled by `pyOrd` and `pyChr` below, and
Python's `%` on integers (floor-mod, which agrees with Euclidean mod for the
positive modulus 13 used here) is modelled by `Int.emod`, Lean's `%` on `ℤ`,
which also returns a value in `[0, 13)` for modulus 13.  Python's order
comparison on single-character strings is comparison of code points, which is
exactly Lean's `≤` on `Char`.
-/

/-- Python `ord`: the code point of a character, as an integer. -/
def pyOrd (c : Char) : ℤ := c.toNat

/-- Python `chr`: the character with the given code point.  Every call site
in `Q1.py` passes a code point of an ASCII letter, where this model is exact. -/
def pyChr (n : ℤ) : Char := Char.ofNat n.toNat

/-- Line 9 of `Q1.py`: `idx = (ord(c) - ord('a') + (k % 13)) % 13`;
`return chr(ord('a') + idx)`. -/
def shift_lower_first (c : Char) (k : ℤ) : Char :=
  let idx := (pyOrd c - pyOrd 'a' + k % 13) % 13
  pyChr (pyOrd 'a' + idx)

/-- Line 13 of `Q1.py`: same rotation with origin `'n'`. -/
def shift_lower_second (c : Char) (k : ℤ) : Char :=
  let idx := (pyOrd c - pyOrd 'n' + k % 13) % 13
  pyChr (pyOrd 'n' + idx)

/-- Line 17 of `Q1.py`: same rotation with origin `'A'`. -/
def shift_upper_first (c : Char) (k : ℤ) : Char :=
  let idx := (pyOrd c - pyOrd 'A' + k % 13) % 13
  pyChr (pyOrd 'A' + idx)

/-- Line 21 of `Q1.py`: same rotation with origin `'N'`. -/
def shift_upper_second (c : Char) (k : ℤ) : Char :=
  let idx := (pyOrd c - pyOrd 'N' + k % 13) % 13
  pyChr (pyOrd 'N' + idx)

/-- Lines 27-42 of `Q1.py`: the encode dispatch. -/
def encrypt_character (ch : Char) (shift1 shift2 : ℤ) : Char :=
  let prod := shift1 * shift2
  let ssum := shift1 + shift2
  if 'a' ≤ ch ∧ ch ≤ 'z' then
    if ch ≤ 'm' then
      shift_lower_first ch prod
    else
      shift_lower_second ch (-ssum)
  else if 'A' ≤ ch ∧ ch ≤ 'Z' then
    if ch ≤ 'M' then
      shift_upper_first ch (-shift1)
    else
      shift_upper_second ch (shift2 * shift2)
  else
    ch

/-- Lines 45-60 of `Q1.py`: the decode dispatch, with each shift sign flipped. -/
def decrypt_character (ch : Char) (shift1 shift2 : ℤ) : Char :=
  let prod := shift1 * shift2
  let ssum := shift1 + shift2
  if 'a' ≤ ch ∧ ch ≤ 'z' then
    if ch ≤ 'm' then
      shift_lower_first ch (-prod)
    else
      shift_lower_second ch ssum
  else if 'A' ≤ ch ∧ ch ≤ 'Z' then
    if ch ≤ 'M' then
      shift_upper_first ch shift1
    else
      shift_upper_second ch (-(shift2 * shift2))
  else
    ch

/-- The pure text transform inside `encrypt_file` (line 66 of `Q1.py`):
`enc = ''.join(encrypt_character(c, shift1, shift2) for c in text)`.
The surrounding file reads and writes are I/O glue outside the model. -/
def encrypt_text (text : List Char) (shift1 shift2 : ℤ) : List Char :=
  text.map (fun c => encrypt_character c shift1 shift2)

/-- The pure text transform inside `decrypt_file` (line 74 of `Q1.py`). -/
def decrypt_text (text : List Char) (shift1 shift2 : ℤ) : List Char :=
  text.map (fun c => decrypt_character c shift1 shift2)

/-! ### Basic facts about characters and the rotation primitive -/

theorem char_toNat_ofNat_lt {n : ℕ} (h : n < 55296) : (Char.ofNat n).toNat = n := by
  have hv : n.isValidChar := Or.inl h
  simp only [Char.ofNat, dif_pos hv]
  rfl

theorem char_eq_of_toNat_eq {a b : Char} (h : a.toNat = b.toNat) : a = b :=
  Char.ext (UInt32.ext h)

theorem char_le_iff_toNat_le {a b : Char} : a ≤ b ↔ a.toNat ≤ b.toNat := Iff.rfl

theorem shift_lower_first_toNat (c : Char) (k : ℤ) :
    ((shift_lower_first c k).toNat : ℤ) =
      97 + ((c.toNat : ℤ) - 97 + k % 13) % 13 := by
  have h0 : 'a'.toNat = 97 := rfl
  unfold shift_lower_first pyChr pyOrd
  rw [h0]
  rw [char_toNat_ofNat_lt (by omega)]
  omega

theorem shift_lower_second_toNat (c : Char) (k : ℤ) :
    ((shift_lower_second c k).toNat : ℤ) =
      110 + ((c.toNat : ℤ) - 110 + k % 13) % 13 := by
  have h0 : 'n'.toNat = 110 := rfl
  unfold shift_lower_second pyChr pyOrd
  rw [h0]
  rw [char_toNat_ofNat_lt (by omega)]
  omega

theorem shift_upper_first_toNat (c : Char) (k : ℤ) :
    ((shift_upper_first c k).toNat : ℤ) =
      65 + ((c.toNat : ℤ) - 65 + k % 13) % 13 := by
  have h0 : 'A'.toNat = 65 := rfl
  unfold shift_upper_first pyChr pyOrd
  rw [h0]
  rw [char_toNat_ofNat_lt (by omega)]
  omega

theorem shift_upper_second_toNat (c : Char) (k : ℤ) :
    ((shift_upper_second c k).toNat : ℤ) =
      78 + ((c.toNat : ℤ) - 78 + k % 13) % 13 := by
  have h0 : 'N'.toNat = 78 := rfl
  unfold shift_upper_second pyChr pyOrd
  rw [h0]
  rw [char_toNat_ofNat_lt (by omega)]
  omega

theorem char_le_of_toNat_le {a b : Char} (h : a.toNat ≤ b.toNat) : a ≤ b := h

theorem toNat_le_of_char_le {a b : Char} (h : a ≤ b) : a.toNat ≤ b.toNat := h

theorem toNat_lower_a : 'a'.toNat = 97 := rfl

theorem toNat_lower_m : 'm'.toNat = 109 := rfl

theorem toNat_lower_n : 'n'.toNat = 110 := rfl

theorem toNat_lower_z : 'z'.toNat = 122 := rfl

theorem toNat_upper_a : 'A'.toNat = 65 := rfl

theorem toNat_upper_m : 'M'.toNat = 77 := rfl

theorem toNat_upper_n : 'N'.toNat = 78 := rfl

theorem toNat_upper_z : 'Z'.toNat = 90 := rfl

/-! ### Branch equations for the two dispatch functions -/

theorem encrypt_character_lower_first (ch : Char) (k1 k2 : ℤ)
    (h1 : 97 ≤ ch.toNat) (h2 : ch.toNat ≤ 109) :
    encrypt_character ch k1 k2 = shift_lower_first ch (k1 * k2) := by
  have hA : 'a' ≤ ch ∧ ch ≤ 'z' := by
    simp only [char_le_iff_toNat_le, toNat_lower_a, toNat_lower_z]; omega
  have hB : ch ≤ 'm' := by
    simp only [char_le_iff_toNat_le, toNat_lower_m]; omega
  simp only [encrypt_character]
  rw [if_pos hA, if_pos hB]

theorem encrypt_character_lower_second (ch : Char) (k1 k2 : ℤ)
    (h1 : 110 ≤ ch.toNat) (h2 : ch.toNat ≤ 122) :
    encrypt_character ch k1 k2 = shift_lower_second ch (-(k1 + k2)) := by
  have hA : 'a' ≤ ch ∧ ch ≤ 'z' := by
    simp only [char_le_iff_toNat_le, toNat_lower_a, toNat_lower_z]; omega
  have hB : ¬ ch ≤ 'm' := by
    simp only [char_le_iff_toNat_le, toNat_lower_m]; omega
  simp only [encrypt_character]
  rw [if_pos hA, if_neg hB]

theorem encrypt_character_upper_first (ch : Char) (k1 k2 : ℤ)
    (h1 : 65 ≤ ch.toNat) (h2 : ch.toNat ≤ 77) :
    encrypt_character ch k1 k2 = shift_upper_first ch (-k1) := by
  have hL : ¬ ('a' ≤ ch ∧ ch ≤ 'z') := by
    simp only [char_le_iff_toNat_le, toNat_lower_a, toNat_lower_z]; omega
  have hA : 'A' ≤ ch ∧ ch ≤ 'Z' := by
    simp only [char_le_iff_toNat_le, toNat_upper_a, toNat_upper_z]; omega
  have hB : ch ≤ 'M' := by
    simp only [char_le_iff_toNat_le, toNat_upper_m]; omega
  simp only [encrypt_character]
  rw [if_neg hL, if_pos hA, if_pos hB]

theorem encrypt_character_upper_second (ch : Char) (k1 k2 : ℤ)
    (h1 : 78 ≤ ch.toNat) (h2 : ch.toNat ≤ 90) :
    encrypt_character ch k1 k2 = shift_upper_second ch (k2 * k2) := by
  have hL : ¬ ('a' ≤ ch ∧ ch ≤ 'z') := by
    simp only [char_le_iff_toNat_le, toNat_lower_a, toNat_lower_z]; omega
  have hA : 'A' ≤ ch ∧ ch ≤ 'Z' := by
    simp only [char_le_iff_toNat_le, toNat_upper_a, toNat_upper_z]; omega
  have hB : ¬ ch ≤ 'M' := by
    simp only [char_le_iff_toNat_le, toNat_upper_m]; omega
  simp only [encrypt_character]
  rw [if_neg hL, if_pos hA, if_neg hB]

theorem encrypt_character_other (ch : Char) (k1 k2 : ℤ)
    (hl : ¬ (97 ≤ ch.toNat ∧ ch.toNat ≤ 122))
    (hu : ¬ (65 ≤ ch.toNat ∧ ch.toNat ≤ 90)) :
    encrypt_character ch k1 k2 = ch := by
  have hL : ¬ ('a' ≤ ch ∧ ch ≤ 'z') := by
    simp only [char_le_iff_toNat_le, toNat_lower_a, toNat_lower_z]; omega
  have hU : ¬ ('A' ≤ ch ∧ ch ≤ 'Z') := by
    simp only [char_le_iff_toNat_le, toNat_upper_a, toNat_upper_z]; omega
  simp only [encrypt_character]
  rw [if_neg hL, if_neg hU]

theorem decrypt_character_lower_first (ch : Char) (k1 k2 : ℤ)
    (h1 : 97 ≤ ch.toNat) (h2 : ch.toNat ≤ 109) :
    decrypt_character ch k1 k2 = shift_lower_first ch (-(k1 * k2)) := by
  have hA : 'a' ≤ ch ∧ ch ≤ 'z' := by
    simp only [char_le_iff_toNat_le, toNat_lower_a, toNat_lower_z]; omega
  have hB : ch ≤ 'm' := by
    simp only [char_le_iff_toNat_le, toNat_lower_m]; omega
  simp only [decrypt_character]
  rw [if_pos hA, if_pos hB]

theorem decrypt_character_lower_second (ch : Char) (k1 k2 : ℤ)
    (h1 : 110 ≤ ch.toNat) (h2 : ch.toNat ≤ 122) :
    decrypt_character ch k1 k2 = shift_lower_second ch (k1 + k2) := by
  have hA : 'a' ≤ ch ∧ ch ≤ 'z' := by
    simp only [char_le_iff_toNat_le, toNat_lower_a, toNat_lower_z]; omega
  have hB : ¬ ch ≤ 'm' := by
    simp only [char_le_iff_toNat_le, toNat_lower_m]; omega
  simp only [decrypt_character]
  rw [if_pos hA, if_neg hB]

theorem decrypt_character_upper_first (ch : Char) (k1 k2 : ℤ)
    (h1 : 65 ≤ ch.toNat) (h2 : ch.toNat ≤ 77) :
    decrypt_character ch k1 k2 = shift_upper_first ch k1 := by
  have hL : ¬ ('a' ≤ ch ∧ ch ≤ 'z') := by
    simp only [char_le_iff_toNat_le, toNat_lower_a, toNat_lower_z]; omega
  have hA : 'A' ≤ ch ∧ ch ≤ 'Z' := by
    simp only [char_le_iff_toNat_le, toNat_upper_a, toNat_upper_z]; omega
  have hB : ch ≤ 'M' := by
    simp only [char_le_iff_toNat_le, toNat_upper_m]; omega
  simp only [decrypt_character]
  rw [if_neg hL, if_pos hA, if_pos hB]

theorem decrypt_character_upper_second (ch : Char) (k1 k2 : ℤ)
    (h1 : 78 ≤ ch.toNat) (h2 : ch.toNat ≤ 90) :
    decrypt_character ch k1 k2 = shift_upper_second ch (-(k2 * k2)) := by
  have hL : ¬ ('a' ≤ ch ∧ ch ≤ 'z') := by
    simp only [char_le_iff_toNat_le, toNat_lower_a, toNat_lower_z]; omega
  have hA : 'A' ≤ ch ∧ ch ≤ 'Z' := by
    simp only [char_le_iff_toNat_le, toNat_upper_a, toNat_upper_z]; omega
  have hB : ¬ ch ≤ 'M' := by
    simp only [char_le_iff_toNat_le, toNat_upper_m]; omega
  simp only [decrypt_character]
  rw [if_neg hL, if_pos hA, if_neg hB]

theorem decrypt_character_other (ch : Char) (k1 k2 : ℤ)
    (hl : ¬ (97 ≤ ch.toNat ∧ ch.toNat ≤ 122))
    (hu : ¬ (65 ≤ ch.toNat ∧ ch.toNat ≤ 90)) :
    decrypt_character ch k1 k2 = ch := by
  have hL : ¬ ('a' ≤ ch ∧ ch ≤ 'z') := by
    simp only [char_le_iff_toNat_le, toNat_lower_a, toNat_lower_z]; omega
  have hU : ¬ ('A' ≤ ch ∧ ch ≤ 'Z') := by
    simp only [char_le_iff_toNat_le, toNat_upper_a, toNat_upper_z]; omega
  simp only [decrypt_character]
  rw [if_neg hL, if_neg hU]

/-! ### Cancellation of a rotation by its additive inverse -/

theorem shift_lower_first_cancel (c : Char) (k : ℤ)
    (h1 : 97 ≤ c.toNat) (h2 : c.toNat ≤ 109) :
    shift_lower_first (shift_lower_first c k) (-k) = c := by
  apply char_eq_of_toNat_eq
  have e1 := shift_lower_first_toNat c k
  have e2 := shift_lower_first_toNat (shift_lower_first c k) (-k)
  omega

theorem shift_lower_second_cancel (c : Char) (k : ℤ)
    (h1 : 110 ≤ c.toNat) (h2 : c.toNat ≤ 122) :
    shift_lower_second (shift_lower_second c k) (-k) = c := by
  apply char_eq_of_toNat_eq
  have e1 := shift_lower_second_toNat c k
  have e2 := shift_lower_second_toNat (shift_lower_second c k) (-k)
  omega

theorem shift_upper_first_cancel (c : Char) (k : ℤ)
    (h1 : 65 ≤ c.toNat) (h2 : c.toNat ≤ 77) :
    shift_upper_first (shift_upper_first c k) (-k) = c := by
  apply char_eq_of_toNat_eq
  have e1 := shift_upper_first_toNat c k
  have e2 := shift_upper_first_toNat (shift_upper_first c k) (-k)
  omega

theorem shift_upper_second_cancel (c : Char) (k : ℤ)
    (h1 : 78 ≤ c.toNat) (h2 : c.toNat ≤ 90) :
    shift_upper_second (shift_upper_second c k) (-k) = c := by
  apply char_eq_of_toNat_eq
  have e1 := shift_upper_second_toNat c k
  have e2 := shift_upper_second_toNat (shift_upper_second c k) (-k)
  omega

/-! ### Round-trip helpers -/

theorem decrypt_encrypt (c : Char) (k1 k2 : ℤ) :
    decrypt_character (encrypt_character c k1 k2) k1 k2 = c := by
  by_cases hl1 : 97 ≤ c.toNat ∧ c.toNat ≤ 109
  · rw [encrypt_character_lower_first c k1 k2 hl1.1 hl1.2]
    have e := shift_lower_first_toNat c (k1 * k2)
    rw [decrypt_character_lower_first _ k1 k2 (by omega) (by omega)]
    exact shift_lower_first_cancel c (k1 * k2) hl1.1 hl1.2
  · by_cases hl2 : 110 ≤ c.toNat ∧ c.toNat ≤ 122
    · rw [encrypt_character_lower_second c k1 k2 hl2.1 hl2.2]
      have e := shift_lower_second_toNat c (-(k1 + k2))
      rw [decrypt_character_lower_second _ k1 k2 (by omega) (by omega)]
      have hc := shift_lower_second_cancel c (-(k1 + k2)) hl2.1 hl2.2
      rwa [neg_neg] at hc
    · by_cases hu1 : 65 ≤ c.toNat ∧ c.toNat ≤ 77
      · rw [encrypt_character_upper_first c k1 k2 hu1.1 hu1.2]
        have e := shift_upper_first_toNat c (-k1)
        rw [decrypt_character_upper_first _ k1 k2 (by omega) (by omega)]
        have hc := shift_upper_first_cancel c (-k1) hu1.1 hu1.2
        rwa [neg_neg] at hc
      · by_cases hu2 : 78 ≤ c.toNat ∧ c.toNat ≤ 90
        · rw [encrypt_character_upper_second c k1 k2 hu2.1 hu2.2]
          have e := shift_upper_second_toNat c (k2 * k2)
          rw [decrypt_character_upper_second _ k1 k2 (by omega) (by omega)]
          exact shift_upper_second_cancel c (k2 * k2) hu2.1 hu2.2
        · rw [encrypt_character_other c k1 k2 (by omega) (by omega),
            decrypt_character_other c k1 k2 (by omega) (by omega)]

theorem encrypt_decrypt (c : Char) (k1 k2 : ℤ) :
    encrypt_character (decrypt_character c k1 k2) k1 k2 = c := by
  by_cases hl1 : 97 ≤ c.toNat ∧ c.toNat ≤ 109
  · rw [decrypt_character_lower_first c k1 k2 hl1.1 hl1.2]
    have e := shift_lower_first_toNat c (-(k1 * k2))
    rw [encrypt_character_lower_first _ k1 k2 (by omega) (by omega)]
    have hc := shift_lower_first_cancel c (-(k1 * k2)) hl1.1 hl1.2
    rwa [neg_neg] at hc
  · by_cases hl2 : 110 ≤ c.toNat ∧ c.toNat ≤ 122
    · rw [decrypt_character_lower_second c k1 k2 hl2.1 hl2.2]
      have e := shift_lower_second_toNat c (k1 + k2)
      rw [encrypt_character_lower_second _ k1 k2 (by omega) (by omega)]
      exact shift_lower_second_cancel c (k1 + k2) hl2.1 hl2.2
    · by_cases hu1 : 65 ≤ c.toNat ∧ c.toNat ≤ 77
      · rw [decrypt_character_upper_first c k1 k2 hu1.1 hu1.2]
        have e := shift_upper_first_toNat c k1
        rw [encrypt_character_upper_first _ k1 k2 (by omega) (by omega)]
        exact shift_upper_first_cancel c k1 hu1.1 hu1.2
      · by_cases hu2 : 78 ≤ c.toNat ∧ c.toNat ≤ 90
        · rw [decrypt_character_upper_second c k1 k2 hu2.1 hu2.2]
          have e := shift_upper_second_toNat c (-(k2 * k2))
          rw [encrypt_character_upper_second _ k1 k2 (by omega) (by omega)]
          have hc := shift_upper_second_cancel c (-(k2 * k2)) hu2.1 hu2.2
          rwa [neg_neg] at hc
        · rw [decrypt_character_other c k1 k2 (by omega) (by omega),
            encrypt_character_other c k1 k2 (by omega) (by omega)]

theorem char_lt_iff_toNat_lt {a b : Char} : a < b ↔ a.toNat < b.toNat := Iff.rfl

theorem fmod_thirteen (a : ℤ) : a.fmod 13 = a % 13 := Int.fmod_eq_emod a (by norm_num)

/-! ### Shift functions depend on the key only through its residue mod 13 -/

theorem shift_lower_first_mod_congr (c : Char) {k k' : ℤ} (h : k % 13 = k' % 13) :
    shift_lower_first c k = shift_lower_first c k' := by
  unfold shift_lower_first
  rw [h]

theorem shift_lower_second_mod_congr (c : Char) {k k' : ℤ} (h : k % 13 = k' % 13) :
    shift_lower_second c k = shift_lower_second c k' := by
  unfold shift_lower_second
  rw [h]

theorem shift_upper_first_mod_congr (c : Char) {k k' : ℤ} (h : k % 13 = k' % 13) :
    shift_upper_first c k = shift_upper_first c k' := by
  unfold shift_upper_first
  rw [h]

theorem shift_upper_second_mod_congr (c : Char) {k k' : ℤ} (h : k % 13 = k' % 13) :
    shift_upper_second c k = shift_upper_second c k' := by
  unfold shift_upper_second
  rw [h]

theorem encrypt_character_key_congr (c : Char) {k1 k2 k1' k2' : ℤ}
    (hp : (k1 * k2) % 13 = (k1' * k2') % 13)
    (hs : (k1 + k2) % 13 = (k1' + k2') % 13)
    (h1 : k1 % 13 = k1' % 13)
    (hq : (k2 * k2) % 13 = (k2' * k2') % 13) :
    encrypt_character c k1 k2 = encrypt_character c k1' k2' := by
  by_cases hl1 : 97 ≤ c.toNat ∧ c.toNat ≤ 109
  · rw [encrypt_character_lower_first c k1 k2 hl1.1 hl1.2,
      encrypt_character_lower_first c k1' k2' hl1.1 hl1.2]
    exact shift_lower_first_mod_congr c hp
  · by_cases hl2 : 110 ≤ c.toNat ∧ c.toNat ≤ 122
    · rw [encrypt_character_lower_second c k1 k2 hl2.1 hl2.2,
        encrypt_character_lower_second c k1' k2' hl2.1 hl2.2]
      exact shift_lower_second_mod_congr c (by omega)
    · by_cases hu1 : 65 ≤ c.toNat ∧ c.toNat ≤ 77
      · rw [encrypt_character_upper_first c k1 k2 hu1.1 hu1.2,
          encrypt_character_upper_first c k1' k2' hu1.1 hu1.2]
        exact shift_upper_first_mod_congr c (by omega)
      · by_cases hu2 : 78 ≤ c.toNat ∧ c.toNat ≤ 90
        · rw [encrypt_character_upper_second c k1 k2 hu2.1 hu2.2,
            encrypt_character_upper_second c k1' k2' hu2.1 hu2.2]
          exact shift_upper_second_mod_congr c hq
        · rw [encrypt_character_other c k1 k2 (by omega) (by omega),
            encrypt_character_other c k1' k2' (by omega) (by omega)]

/-! ### Claim theorems -/

/-- C1.  Round-trip: for every single character `c` (letter or not) and every
pair of integers `(key1, key2)`, including zero and negative keys of any
magnitude, `decrypt_character (encrypt_character c key1 key2) key1 key2 = c`. -/
theorem claim_round_trip_decrypt_encrypt (c : Char) (key1 key2 : ℤ) :
    decrypt_character (encrypt_character c key1 key2) key1 key2 = c :=
  decrypt_encrypt c key1 key2

/-- C2.  Rotation primitive: each of the four shift functions returns
`chr (ord origin + index)` where `index = ((ord c - ord origin) + (k mod 13)) mod 13`
is computed with floor-mod (`Int.fmod`), so the index always lies in `[0, 13)`;
this holds for every character `c` and every signed integer `k`,
with no restriction to non-negative keys. -/
theorem claim_rotation_primitive (c : Char) (k : ℤ) :
    (shift_lower_first c k =
        pyChr (pyOrd 'a' + ((pyOrd c - pyOrd 'a') + k.fmod 13).fmod 13)
      ∧ 0 ≤ ((pyOrd c - pyOrd 'a') + k.fmod 13).fmod 13
      ∧ ((pyOrd c - pyOrd 'a') + k.fmod 13).fmod 13 < 13)
    ∧ (shift_lower_second c k =
        pyChr (pyOrd 'n' + ((pyOrd c - pyOrd 'n') + k.fmod 13).fmod 13)
      ∧ 0 ≤ ((pyOrd c - pyOrd 'n') + k.fmod 13).fmod 13
      ∧ ((pyOrd c - pyOrd 'n') + k.fmod 13).fmod 13 < 13)
    ∧ (shift_upper_first c k =
        pyChr (pyOrd 'A' + ((pyOrd c - pyOrd 'A') + k.fmod 13).fmod 13)
      ∧ 0 ≤ ((pyOrd c - pyOrd 'A') + k.fmod 13).fmod 13
      ∧ ((pyOrd c - pyOrd 'A') + k.fmod 13).fmod 13 < 13)
    ∧ (shift_upper_second c k =
        pyChr (pyOrd 'N' + ((pyOrd c - pyOrd 'N') + k.fmod 13).fmod 13)
      ∧ 0 ≤ ((pyOrd c - pyOrd 'N') + k.fmod 13).fmod 13
      ∧ ((pyOrd c - pyOrd 'N') + k.fmod 13).fmod 13 < 13) := by
  simp only [fmod_thirteen]
  refine ⟨⟨rfl, by omega, by omega⟩, ⟨rfl, by omega, by omega⟩,
    ⟨rfl, by omega, by omega⟩, ⟨rfl, by omega, by omega⟩⟩

/-- C3.  Encode dispatch table: for all integers `key1, key2`,
`encrypt_character` rotates a lowercase letter ≤ 'm' within segment 'a' by
`+(key1*key2)`; a lowercase letter > 'm' within segment 'n' by `-(key1+key2)`;
an uppercase letter ≤ 'M' within segment 'A' by `-key1`; an uppercase letter
> 'M' within segment 'N' by `+(key2*key2)`; and returns any other character
unchanged; the lowercase and uppercase classes are mutually exclusive, so the
five classes partition the character domain and first-match-wins evaluation
agrees with the table. -/
theorem claim_encode_dispatch (ch : Char) (key1 key2 : ℤ) :
    (('a' ≤ ch ∧ ch ≤ 'z' ∧ ch ≤ 'm') →
      encrypt_character ch key1 key2 = shift_lower_first ch (key1 * key2))
    ∧ (('a' ≤ ch ∧ ch ≤ 'z' ∧ 'm' < ch) →
      encrypt_character ch key1 key2 = shift_lower_second ch (-(key1 + key2)))
    ∧ (('A' ≤ ch ∧ ch ≤ 'Z' ∧ ch ≤ 'M') →
      encrypt_character ch key1 key2 = shift_upper_first ch (-key1))
    ∧ (('A' ≤ ch ∧ ch ≤ 'Z' ∧ 'M' < ch) →
      encrypt_character ch key1 key2 = shift_upper_second ch (key2 * key2))
    ∧ (¬ (('a' ≤ ch ∧ ch ≤ 'z') ∨ ('A' ≤ ch ∧ ch ≤ 'Z')) →
      encrypt_character ch key1 key2 = ch)
    ∧ ¬ (('a' ≤ ch ∧ ch ≤ 'z') ∧ ('A' ≤ ch ∧ ch ≤ 'Z')) := by
  refine ⟨?_, ?_, ?_, ?_, ?_, ?_⟩
  · rintro ⟨h1, h2, h3⟩
    exact encrypt_character_lower_first ch key1 key2 h1 h3
  · rintro ⟨h1, h2, h3⟩
    exact encrypt_character_lower_second ch key1 key2 h3 h2
  · rintro ⟨h1, h2, h3⟩
    exact encrypt_character_upper_first ch key1 key2 h1 h3
  · rintro ⟨h1, h2, h3⟩
    exact encrypt_character_upper_second ch key1 key2 h3 h2
  · intro h
    obtain ⟨hA, hB⟩ := not_or.mp h
    exact encrypt_character_other ch key1 key2
      (fun hc => hA ⟨hc.1, hc.2⟩) (fun hc => hB ⟨hc.1, hc.2⟩)
  · rintro ⟨⟨h1, -⟩, ⟨-, h4⟩⟩
    have h1' : 97 ≤ ch.toNat := h1
    have h4' : ch.toNat ≤ 90 := h4
    omega

/-- Witness for C3 at concrete inputs. -/
theorem claim_encode_dispatch_witness :
    ('a' ≤ 'c' ∧ 'c' ≤ 'z' ∧ 'c' ≤ 'm')
    ∧ encrypt_character 'c' 3 4 = shift_lower_first 'c' (3 * 4)
    ∧ ('a' ≤ 'p' ∧ 'p' ≤ 'z' ∧ 'm' < 'p')
    ∧ encrypt_character 'p' 3 4 = shift_lower_second 'p' (-(3 + 4))
    ∧ ('A' ≤ 'C' ∧ 'C' ≤ 'Z' ∧ 'C' ≤ 'M')
    ∧ encrypt_character 'C' 3 4 = shift_upper_first 'C' (-3)
    ∧ ('A' ≤ 'P' ∧ 'P' ≤ 'Z' ∧ 'M' < 'P')
    ∧ encrypt_character 'P' 3 4 = shift_upper_second 'P' (4 * 4)
    ∧ ¬ (('a' ≤ '!' ∧ '!' ≤ 'z') ∨ ('A' ≤ '!' ∧ '!' ≤ 'Z'))
    ∧ encrypt_character '!' 3 4 = '!' :=
  ⟨by decide, (claim_encode_dispatch 'c' 3 4).1 (by decide),
   by decide, (claim_encode_dispatch 'p' 3 4).2.1 (by decide),
   by decide, (claim_encode_dispatch 'C' 3 4).2.2.1 (by decide),
   by decide, (claim_encode_dispatch 'P' 3 4).2.2.2.1 (by decide),
   by decide, (claim_encode_dispatch '!' 3 4).2.2.2.2.1 (by decide)⟩

/-- C4.  Decode dispatch is the structural mirror of encode:
`decrypt_character` classifies the ciphertext character by the same case/half
test as `encrypt_character` and applies the additive inverse of each encode
rule's amount — segment 'a' by `-(key1*key2)`, segment 'n' by `+(key1+key2)`,
segment 'A' by `+key1`, segment 'N' by `-(key2*key2)` — while non-letters pass
through unchanged. -/
theorem claim_decode_dispatch (ch : Char) (key1 key2 : ℤ) :
    (('a' ≤ ch ∧ ch ≤ 'z' ∧ ch ≤ 'm') →
      decrypt_character ch key1 key2 = shift_lower_first ch (-(key1 * key2)))
    ∧ (('a' ≤ ch ∧ ch ≤ 'z' ∧ 'm' < ch) →
      decrypt_character ch key1 key2 = shift_lower_second ch (key1 + key2))
    ∧ (('A' ≤ ch ∧ ch ≤ 'Z' ∧ ch ≤ 'M') →
      decrypt_character ch key1 key2 = shift_upper_first ch key1)
    ∧ (('A' ≤ ch ∧ ch ≤ 'Z' ∧ 'M' < ch) →
      decrypt_character ch key1 key2 = shift_upper_second ch (-(key2 * key2)))
    ∧ (¬ (('a' ≤ ch ∧ ch ≤ 'z') ∨ ('A' ≤ ch ∧ ch ≤ 'Z')) →
      decrypt_character ch key1 key2 = ch) := by
  refine ⟨?_, ?_, ?_, ?_, ?_⟩
  · rintro ⟨h1, h2, h3⟩
    exact decrypt_character_lower_first ch key1 key2 h1 h3
  · rintro ⟨h1, h2, h3⟩
    exact decrypt_character_lower_second ch key1 key2 h3 h2
  · rintro ⟨h1, h2, h3⟩
    exact decrypt_character_upper_first ch key1 key2 h1 h3
  · rintro ⟨h1, h2, h3⟩
    exact decrypt_character_upper_second ch key1 key2 h3 h2
  · intro h
    obtain ⟨hA, hB⟩ := not_or.mp h
    exact decrypt_character_other ch key1 key2
      (fun hc => hA ⟨hc.1, hc.2⟩) (fun hc => hB ⟨hc.1, hc.2⟩)

/-- Witness for C4 at concrete inputs. -/
theorem claim_decode_dispatch_witness :
    ('a' ≤ 'c' ∧ 'c' ≤ 'z' ∧ 'c' ≤ 'm')
    ∧ decrypt_character 'c' 3 4 = shift_lower_first 'c' (-(3 * 4))
    ∧ ('a' ≤ 'p' ∧ 'p' ≤ 'z' ∧ 'm' < 'p')
    ∧ decrypt_character 'p' 3 4 = shift_lower_second 'p' (3 + 4)
    ∧ ('A' ≤ 'C' ∧ 'C' ≤ 'Z' ∧ 'C' ≤ 'M')
    ∧ decrypt_character 'C' 3 4 = shift_upper_first 'C' 3
    ∧ ('A' ≤ 'P' ∧ 'P' ≤ 'Z' ∧ 'M' < 'P')
    ∧ decrypt_character 'P' 3 4 = shift_upper_second 'P' (-(4 * 4))
    ∧ ¬ (('a' ≤ '!' ∧ '!' ≤ 'z') ∨ ('A' ≤ '!' ∧ '!' ≤ 'Z'))
    ∧ decrypt_character '!' 3 4 = '!' :=
  ⟨by decide, (claim_decode_dispatch 'c' 3 4).1 (by decide),
   by decide, (claim_decode_dispatch 'p' 3 4).2.1 (by decide),
   by decide, (claim_decode_dispatch 'C' 3 4).2.2.1 (by decide),
   by decide, (claim_decode_dispatch 'P' 3 4).2.2.2.1 (by decide),
   by decide, (claim_decode_dispatch '!' 3 4).2.2.2.2 (by decide)⟩

/-- C5.  Class closure: for every integer pair `(key1, key2)`,
`encrypt_character` maps any character in 'a'..'m' to a character in 'a'..'m',
and likewise keeps each of the other three 13-letter classes ('n'..'z',
'A'..'M', 'N'..'Z') closed; the same closure holds for `decrypt_character`,
so the ciphertext letter is classified into the same class as its plaintext
letter. -/
theorem claim_class_closure (ch : Char) (key1 key2 : ℤ) :
    (('a' ≤ ch ∧ ch ≤ 'm') →
      ('a' ≤ encrypt_character ch key1 key2 ∧ encrypt_character ch key1 key2 ≤ 'm')
      ∧ ('a' ≤ decrypt_character ch key1 key2 ∧ decrypt_character ch key1 key2 ≤ 'm'))
    ∧ (('n' ≤ ch ∧ ch ≤ 'z') →
      ('n' ≤ encrypt_character ch key1 key2 ∧ encrypt_character ch key1 key2 ≤ 'z')
      ∧ ('n' ≤ decrypt_character ch key1 key2 ∧ decrypt_character ch key1 key2 ≤ 'z'))
    ∧ (('A' ≤ ch ∧ ch ≤ 'M') →
      ('A' ≤ encrypt_character ch key1 key2 ∧ encrypt_character ch key1 key2 ≤ 'M')
      ∧ ('A' ≤ decrypt_character ch key1 key2 ∧ decrypt_character ch key1 key2 ≤ 'M'))
    ∧ (('N' ≤ ch ∧ ch ≤ 'Z') →
      ('N' ≤ encrypt_character ch key1 key2 ∧ encrypt_character ch key1 key2 ≤ 'Z')
      ∧ ('N' ≤ decrypt_character ch key1 key2 ∧ decrypt_character ch key1 key2 ≤ 'Z')) := by
  refine ⟨?_, ?_, ?_, ?_⟩
  · rintro ⟨h1, h2⟩
    have h1' : 97 ≤ ch.toNat := h1
    have h2' : ch.toNat ≤ 109 := h2
    rw [encrypt_character_lower_first ch key1 key2 h1' h2',
      decrypt_character_lower_first ch key1 key2 h1' h2']
    have e1 := shift_lower_first_toNat ch (key1 * key2)
    have e2 := shift_lower_first_toNat ch (-(key1 * key2))
    refine ⟨⟨?_, ?_⟩, ?_, ?_⟩ <;>
      · simp only [char_le_iff_toNat_le, toNat_lower_a, toNat_lower_m]
        omega
  · rintro ⟨h1, h2⟩
    have h1' : 110 ≤ ch.toNat := h1
    have h2' : ch.toNat ≤ 122 := h2
    rw [encrypt_character_lower_second ch key1 key2 h1' h2',
      decrypt_character_lower_second ch key1 key2 h1' h2']
    have e1 := shift_lower_second_toNat ch (-(key1 + key2))
    have e2 := shift_lower_second_toNat ch (key1 + key2)
    refine ⟨⟨?_, ?_⟩, ?_, ?_⟩ <;>
      · simp only [char_le_iff_toNat_le, toNat_lower_n, toNat_lower_z]
        omega
  · rintro ⟨h1, h2⟩
    have h1' : 65 ≤ ch.toNat := h1
    have h2' : ch.toNat ≤ 77 := h2
    rw [encrypt_character_upper_first ch key1 key2 h1' h2',
      decrypt_character_upper_first ch key1 key2 h1' h2']
    have e1 := shift_upper_first_toNat ch (-key1)
    have e2 := shift_upper_first_toNat ch key1
    refine ⟨⟨?_, ?_⟩, ?_, ?_⟩ <;>
      · simp only [char_le_iff_toNat_le, toNat_upper_a, toNat_upper_m]
        omega
  · rintro ⟨h1, h2⟩
    have h1' : 78 ≤ ch.toNat := h1
    have h2' : ch.toNat ≤ 90 := h2
    rw [encrypt_character_upper_second ch key1 key2 h1' h2',
      decrypt_character_upper_second ch key1 key2 h1' h2']
    have e1 := shift_upper_second_toNat ch (key2 * key2)
    have e2 := shift_upper_second_toNat ch (-(key2 * key2))
    refine ⟨⟨?_, ?_⟩, ?_, ?_⟩ <;>
      · simp only [char_le_iff_toNat_le, toNat_upper_n, toNat_upper_z]
        omega

/-- Witness for C5 at concrete inputs, one per class. -/
theorem claim_class_closure_witness :
    (('a' ≤ 'b' ∧ 'b' ≤ 'm')
      ∧ ('a' ≤ encrypt_character 'b' 3 4 ∧ encrypt_character 'b' 3 4 ≤ 'm')
      ∧ ('a' ≤ decrypt_character 'b' 3 4 ∧ decrypt_character 'b' 3 4 ≤ 'm'))
    ∧ (('n' ≤ 'p' ∧ 'p' ≤ 'z')
      ∧ ('n' ≤ encrypt_character 'p' 3 4 ∧ encrypt_character 'p' 3 4 ≤ 'z')
      ∧ ('n' ≤ decrypt_character 'p' 3 4 ∧ decrypt_character 'p' 3 4 ≤ 'z'))
    ∧ (('A' ≤ 'B' ∧ 'B' ≤ 'M')
      ∧ ('A' ≤ encrypt_character 'B' 3 4 ∧ encrypt_character 'B' 3 4 ≤ 'M')
      ∧ ('A' ≤ decrypt_character 'B' 3 4 ∧ decrypt_character 'B' 3 4 ≤ 'M'))
    ∧ (('N' ≤ 'P' ∧ 'P' ≤ 'Z')
      ∧ ('N' ≤ encrypt_character 'P' 3 4 ∧ encrypt_character 'P' 3 4 ≤ 'Z')
      ∧ ('N' ≤ decrypt_character 'P' 3 4 ∧ decrypt_character 'P' 3 4 ≤ 'Z')) :=
  ⟨⟨by decide, (claim_class_closure 'b' 3 4).1 (by decide)⟩,
   ⟨by decide, (claim_class_closure 'p' 3 4).2.1 (by decide)⟩,
   ⟨by decide, (claim_class_closure 'B' 3 4).2.2.1 (by decide)⟩,
   ⟨by decide, (claim_class_closure 'P' 3 4).2.2.2 (by decide)⟩⟩

/-- C6.  Passthrough: for every character `c` not in `[a-zA-Z]` (digits,
punctuation, whitespace, newline) and all integer pairs `(key1, key2)`, both
`encrypt_character` and `decrypt_character` return `c` unchanged, independent
of the keys. -/
theorem claim_passthrough (c : Char) (key1 key2 : ℤ)
    (h : ¬ (('a' ≤ c ∧ c ≤ 'z') ∨ ('A' ≤ c ∧ c ≤ 'Z'))) :
    encrypt_character c key1 key2 = c ∧ decrypt_character c key1 key2 = c := by
  obtain ⟨hA, hB⟩ := not_or.mp h
  exact ⟨encrypt_character_other c key1 key2
      (fun hc => hA ⟨hc.1, hc.2⟩) (fun hc => hB ⟨hc.1, hc.2⟩),
    decrypt_character_other c key1 key2
      (fun hc => hA ⟨hc.1, hc.2⟩) (fun hc => hB ⟨hc.1, hc.2⟩)⟩

/-- Witness for C6: the digit '7', a newline, and '!' pass through. -/
theorem claim_passthrough_witness :
    (¬ (('a' ≤ '7' ∧ '7' ≤ 'z') ∨ ('A' ≤ '7' ∧ '7' ≤ 'Z'))
      ∧ encrypt_character '7' 5 (-7) = '7' ∧ decrypt_character '7' 5 (-7) = '7')
    ∧ (¬ (('a' ≤ '\n' ∧ '\n' ≤ 'z') ∨ ('A' ≤ '\n' ∧ '\n' ≤ 'Z'))
      ∧ encrypt_character '\n' 0 1000 = '\n' ∧ decrypt_character '\n' 0 1000 = '\n')
    ∧ (¬ (('a' ≤ '!' ∧ '!' ≤ 'z') ∨ ('A' ≤ '!' ∧ '!' ≤ 'Z'))
      ∧ encrypt_character '!' 5 7 = '!' ∧ decrypt_character '!' 5 7 = '!') :=
  ⟨⟨by decide, claim_passthrough '7' 5 (-7) (by decide)⟩,
   ⟨by decide, claim_passthrough '\n' 0 1000 (by decide)⟩,
   ⟨by decide, claim_passthrough '!' 5 7 (by decide)⟩⟩

/-- C7.  Text transform length and order preservation: for every text and all
integer pairs `(key1, key2)`, the whole-text transform applies the
per-character encode (or decode) function independently to each character in
order, so the output has exactly the input's length, position `i` of the
output is the per-character transform of position `i` of the input, and
non-letter characters appear unchanged at identical positions. -/
theorem claim_text_transform (text : List Char) (key1 key2 : ℤ) :
    (encrypt_text text key1 key2).length = text.length
    ∧ (decrypt_text text key1 key2).length = text.length
    ∧ (∀ i : ℕ, (encrypt_text text key1 key2)[i]? =
        Option.map (fun c => encrypt_character c key1 key2) text[i]?)
    ∧ (∀ i : ℕ, (decrypt_text text key1 key2)[i]? =
        Option.map (fun c => decrypt_character c key1 key2) text[i]?)
    ∧ (∀ (i : ℕ) (c : Char), text[i]? = some c →
        ¬ (('a' ≤ c ∧ c ≤ 'z') ∨ ('A' ≤ c ∧ c ≤ 'Z')) →
        (encrypt_text text key1 key2)[i]? = some c
          ∧ (decrypt_text text key1 key2)[i]? = some c) := by
  refine ⟨List.length_map text _, List.length_map text _,
    fun i => List.getElem?_map _ text i, fun i => List.getElem?_map _ text i,
    fun i c hc hn => ?_⟩
  obtain ⟨he, hd⟩ := claim_passthrough c key1 key2 hn
  unfold encrypt_text decrypt_text
  rw [List.getElem?_map, List.getElem?_map, hc]
  exact ⟨congrArg some he, congrArg some hd⟩

/-- Witness for C7 on a concrete text containing a non-letter. -/
theorem claim_text_transform_witness :
    (encrypt_text ['a', '!', 'Z'] 3 4).length = (['a', '!', 'Z'] : List Char).length
    ∧ (['a', '!', 'Z'] : List Char)[1]? = some '!'
    ∧ ¬ (('a' ≤ '!' ∧ '!' ≤ 'z') ∨ ('A' ≤ '!' ∧ '!' ≤ 'Z'))
    ∧ (encrypt_text ['a', '!', 'Z'] 3 4)[1]? = some '!'
    ∧ (decrypt_text ['a', '!', 'Z'] 3 4)[1]? = some '!' :=
  ⟨(claim_text_transform ['a', '!', 'Z'] 3 4).1, by decide, by decide,
   ((claim_text_transform ['a', '!', 'Z'] 3 4).2.2.2.2 1 '!' (by decide) (by decide)).1,
   ((claim_text_transform ['a', '!', 'Z'] 3 4).2.2.2.2 1 '!' (by decide) (by decide)).2⟩

/-- C8.  Concrete scenarios: `encrypt_character 'a' 3 4 = 'm'`,
`encrypt_character 'n' 3 4 = 't'`, `encrypt_character 'A' 3 4 = 'K'`,
`encrypt_character 'N' 3 4 = 'Q'`, `encrypt_character '!' 5 7 = '!'`, and for
each of the four letter results `decrypt_character` with the same keys
`(3, 4)` returns the original character exactly. -/
theorem claim_concrete_scenarios :
    encrypt_character 'a' 3 4 = 'm'
    ∧ encrypt_character 'n' 3 4 = 't'
    ∧ encrypt_character 'A' 3 4 = 'K'
    ∧ encrypt_character 'N' 3 4 = 'Q'
    ∧ encrypt_character '!' 5 7 = '!'
    ∧ decrypt_character 'm' 3 4 = 'a'
    ∧ decrypt_character 't' 3 4 = 'n'
    ∧ decrypt_character 'K' 3 4 = 'A'
    ∧ decrypt_character 'Q' 3 4 = 'N' := by
  decide

/-- C9.  Encode is also a left inverse of decode: for every character `c` and
every integer pair `(key1, key2)`,
`encrypt_character (decrypt_character c key1 key2) key1 key2 = c`;
consequently, for fixed keys both `encrypt_character` and `decrypt_character`
are bijections on the character domain. -/
theorem claim_encode_left_inverse_of_decode (key1 key2 : ℤ) :
    (∀ c : Char, encrypt_character (decrypt_character c key1 key2) key1 key2 = c)
    ∧ Function.Bijective (fun c => encrypt_character c key1 key2)
    ∧ Function.Bijective (fun c => decrypt_character c key1 key2) :=
  ⟨fun c => encrypt_decrypt c key1 key2,
   Function.bijective_iff_has_inverse.mpr
     ⟨fun c => decrypt_character c key1 key2,
      fun c => decrypt_encrypt c key1 key2,
      fun c => encrypt_decrypt c key1 key2⟩,
   Function.bijective_iff_has_inverse.mpr
     ⟨fun c => encrypt_character c key1 key2,
      fun c => encrypt_decrypt c key1 key2,
      fun c => decrypt_encrypt c key1 key2⟩⟩

/-- C10.  Key periodicity mod 13: each of the four shift functions depends on
its shift amount only through its residue modulo 13, so rotating by `k + 13`
equals rotating by `k`; hence two key pairs whose four derived amounts
(`key1*key2`, `key1+key2`, `key1`, `key2*key2`) agree mod 13 produce identical
encryptions of every text. -/
theorem claim_key_periodicity :
    (∀ (c : Char) (k : ℤ), shift_lower_first c (k + 13) = shift_lower_first c k)
    ∧ (∀ (c : Char) (k : ℤ), shift_lower_second c (k + 13) = shift_lower_second c k)
    ∧ (∀ (c : Char) (k : ℤ), shift_upper_first c (k + 13) = shift_upper_first c k)
    ∧ (∀ (c : Char) (k : ℤ), shift_upper_second c (k + 13) = shift_upper_second c k)
    ∧ (∀ k1 k2 k1' k2' : ℤ,
        (k1 * k2) % 13 = (k1' * k2') % 13 →
        (k1 + k2) % 13 = (k1' + k2') % 13 →
        k1 % 13 = k1' % 13 →
        (k2 * k2) % 13 = (k2' * k2') % 13 →
        ∀ text : List Char, encrypt_text text k1 k2 = encrypt_text text k1' k2') := by
  refine ⟨fun c k => shift_lower_first_mod_congr c (by omega),
    fun c k => shift_lower_second_mod_congr c (by omega),
    fun c k => shift_upper_first_mod_congr c (by omega),
    fun c k => shift_upper_second_mod_congr c (by omega),
    fun k1 k2 k1' k2' hp hs h1 hq text => ?_⟩
  unfold encrypt_text
  exact List.map_congr_left (fun c _ => encrypt_character_key_congr c hp hs h1 hq)

/-- Witness for C10: the key pairs (3, 4) and (16, 17) agree mod 13 in all
four derived amounts and encrypt a sample text identically. -/
theorem claim_key_periodicity_witness :
    ((3 : ℤ) * 4) % 13 = ((16 : ℤ) * 17) % 13
    ∧ ((3 : ℤ) + 4) % 13 = ((16 : ℤ) + 17) % 13
    ∧ (3 : ℤ) % 13 = (16 : ℤ) % 13
    ∧ ((4 : ℤ) * 4) % 13 = ((17 : ℤ) * 17) % 13
    ∧ encrypt_text ['a', 'n', 'A', 'N', '!'] 3 4
        = encrypt_text ['a', 'n', 'A', 'N', '!'] 16 17 :=
  ⟨by decide, by decide, by decide, by decide,
   claim_key_periodicity.2.2.2.2 3 4 16 17 (by decide) (by decide) (by decide)
     (by decide) ['a', 'n', 'A', 'N', '!']⟩
